import Mathlib

/-!
Verification of the index merge engine of the semantic-release-helm
repository, as a shallow embedding of the TypeScript sources
`src/helm-index.ts` and `src/helm-chart.ts` (the latter file carries
several evolving revisions of the chart model and of the index engine;
both index implementations are embedded here, the one of
`helm-index.ts` with the suffix `A`, the one embedded in
`src/helm-chart.ts` with the suffix `B`).

Effectful inputs of the code (file bytes, the SHA-256 digest of the
archive, the current time) are passed to the embedded operations as
explicit parameters: `digest` stands for the hex digest the engine
computes from the archive bytes, `created` for the ISO-8601 timestamp
taken at call time, `filename` for the base name of the archive path,
and YAML parsing is abstracted by handing the parsed document (or its
absence) to the load operations.
-/

namespace SemRelHelm

/-- The subset of YAML/JS values the index engine manipulates: strings,
numbers, booleans and lists of strings (chart metadata such as
keywords). Numbers are modelled as integers; the manifests and claims
at issue only use integral numerics. -/
inductive Val where
  | vStr (s : String)
  | vNum (n : Int)
  | vBool (b : Bool)
  | vStrList (elems : List String)
deriving DecidableEq

/-- A JS object as an association list in key insertion order with
unique keys (JS object semantics). -/
abbrev Obj := List (String × Val)

/-- Property read `o[k]`: first binding of the key, if any. -/
def getKey (o : Obj) (k : String) : Option Val :=
  (o.find? (fun p => p.1 == k)).map (·.2)

/-- Whether the key is present. -/
def hasKey (o : Obj) (k : String) : Bool :=
  o.any (fun p => p.1 == k)

/-- Property write `o[k] = v`: overwrite in place when the key exists
(keeping its position, as JS does), otherwise append the new key. -/
def setKey (o : Obj) (k : String) (v : Val) : Obj :=
  if hasKey o k then o.map (fun p => if p.1 == k then (k, v) else p)
  else o ++ [(k, v)]

/-- Sequential property writes, modelling both object spread
`(...base, ...extra)` and a `for (const (k, v) of entries) base[k] = v`
loop: later keys win. -/
def spreadInto (base : Obj) (extra : List (String × Val)) : Obj :=
  extra.foldl (fun acc kv => setKey acc kv.1 kv.2) base

/-- JS `String(v)` on the modelled values: strings unchanged, numbers
in decimal, booleans as `true`/`false`, arrays joined by commas. -/
def jsStringV : Val → String
  | .vStr s => s
  | .vNum n => toString n
  | .vBool b => cond b "true" "false"
  | .vStrList l => String.intercalate "," l

/-- JS `String(x)` where `x` may be `undefined` (an absent property). -/
def jsStringU : Option Val → String
  | none => "undefined"
  | some v => jsStringV v

/-! ## Version segment comparison (the sort comparator of
`helm-index.ts`, lines 184-195) -/

/-- Decimal value of a digit string. -/
def digitsVal (l : List Char) : Nat :=
  l.foldl (fun a c => a * 10 + (c.toNat - 48)) 0

/-- `Number(segment)` as the comparator consumes it: the comparator
replaces every non-finite `Number(...)` result by `0`
(`Number.isFinite(as[i]) ? as[i] : 0`), and `Number("") = 0`, so a
segment contributes its decimal value when it is all digits and `0`
otherwise. -/
def jsSegNum (l : List Char) : Nat :=
  if l.all Char.isDigit then digitsVal l else 0

/-- `split('.')` on the character list of a version string. -/
def splitDot : List Char → List (List Char)
  | [] => [[]]
  | c :: rest =>
    let r := splitDot rest
    if c = '.' then [] :: r
    else
      match r with
      | [] => [[c]]
      | h :: t => (c :: h) :: t

/-- The numeric dot-segments of a version string,
`v.split('.').map(Number)` with the comparator's NaN-to-zero collapse. -/
def segsOf (v : String) : List Nat :=
  (splitDot v.data).map jsSegNum

/-- The comparator loop once the first version ran out of segments:
its remaining padded segments are zeros, so the test survives only
while the second version's remaining segments are zero too. -/
def segGeL : List Nat → Bool
  | [] => true
  | b :: bs => if b = 0 then segGeL bs else false

/-- The comparator loop once the second version ran out of segments:
zeros on the right, so the first difference, if any, favours the
first version. -/
def segGeR : List Nat → Bool
  | [] => true
  | a :: as => if a = 0 then segGeR as else decide (0 < a)

/-- `segGe x y` holds when the comparator of `helm-index.ts` returns a
value that is at most `0` on versions with segments `x` and `y`: the
loop pads the shorter list with zeros and decides at the first
differing index; list `x` may be placed before `y` exactly when at the
first difference `x`'s segment is larger, or there is no difference. -/
def segGe : List Nat → List Nat → Bool
  | [], bs => segGeL bs
  | as, [] => segGeR as
  | a :: as, b :: bs => if a = b then segGe as bs else decide (b < a)

/-- `a.version` as the comparator reads it; entries parsed from a
v1 index file carry string versions (interface `ChartEntry`). -/
def verOf (e : Obj) : String :=
  match getKey e "version" with
  | some (.vStr s) => s
  | _ => ""

/-- The comparator as a before-or-equal test: `entryLe a b` iff the
comparator's result on `(a, b)` is at most zero, i.e. `a`'s version is
segmentwise at least `b`'s (descending order). -/
def entryLe (a b : Obj) : Bool :=
  segGe (segsOf (verOf a)) (segsOf (verOf b))

/-- Stable insertion placing the new element before the first element
it may precede. `Array.prototype.sort` is stable and the comparator is
consistent (a total preorder, proved below), so the JS sort result is
the unique stable sort, which this computes. -/
def insertEntry (e : Obj) : List Obj → List Obj
  | [] => [e]
  | x :: xs => if entryLe e x then e :: x :: xs else x :: insertEntry e xs

/-- Stable sort of an entry list by descending version. -/
def sortEntries : List Obj → List Obj
  | [] => []
  | x :: xs => insertEntry x (sortEntries xs)

/-! ## The index document -/

/-- Mapping of chart name to its entry list, in key insertion order. -/
abbrev Entries := List (String × List Obj)

/-- An in-memory index document. The `apiVersion` field is the fixed
literal string v1 on every constructed document and is left implicit.
-/
structure HelmIndexDoc where
  entries : Entries
  generated : Option String
deriving DecidableEq

/-- `HelmIndex.empty()`. -/
def emptyIdx : HelmIndexDoc := ⟨[], none⟩

/-- Mapping read `entries[name]`. -/
def lookupE (m : Entries) (k : String) : Option (List Obj) :=
  (m.find? (fun p => p.1 == k)).map (·.2)

/-! ## The chart model (lenient revision of `src/helm-chart.ts`,
lines 22-127: missing fields are coerced, nothing throws) -/

/-- A parsed Chart.yaml retained as a raw map. -/
structure HelmChart where
  data : Obj
deriving DecidableEq

/-- `name()`: the string coercion of the name field, the empty string
when absent. -/
def HelmChart.name (c : HelmChart) : String :=
  match getKey c.data "name" with
  | none => ""
  | some v => jsStringV v

/-- `version()`: the string coercion of the version field, or absent. -/
def HelmChart.version (c : HelmChart) : Option String :=
  (getKey c.data "version").map jsStringV

/-- `apiVersion()`: the string coercion of the apiVersion field, or
absent. -/
def HelmChart.apiVersion (c : HelmChart) : Option String :=
  (getKey c.data "apiVersion").map jsStringV

/-- `raw()`: the raw map (a shallow copy in the source; values are
immutable here, so the copy is the value itself). -/
def HelmChart.raw (c : HelmChart) : Obj := c.data

/-! ## The strict chart loader (revision of `src/helm-chart.ts`,
lines 203-312: `HelmChart.from` throws unless name and version are
strings) -/

/-- A chart as loaded by the strict revision. -/
structure StrictChart where
  chart : Obj
deriving DecidableEq

/-- `typeof x === 'string'` on an optional property value. -/
def isStrOpt : Option Val → Bool
  | some (.vStr _) => true
  | _ => false

/-- The strict `HelmChart.from` after file read and YAML parse: `none`
models a parse result that is not an object (property access yields
`undefined`). Throws (errors) unless `name` and `version` are strings.
-/
def strictFrom (parsed : Option Obj) : Except String StrictChart :=
  match parsed with
  | some o =>
    if isStrOpt (getKey o "name") && isStrOpt (getKey o "version") then
      .ok ⟨o⟩
    else .error "Invalid Chart.yaml"
  | none => .error "Invalid Chart.yaml"

/-- Strict `name()`. -/
def StrictChart.name (c : StrictChart) : String :=
  match getKey c.chart "name" with
  | some (.vStr s) => s
  | _ => ""

/-- Strict `version()`. -/
def StrictChart.version (c : StrictChart) : String :=
  match getKey c.chart "version" with
  | some (.vStr s) => s
  | _ => ""

/-! ## Index load -/

/-- A successfully parsed index.yaml document, fields as optional as
in the file. `entries` is `none` when the section is absent or null. -/
structure ParsedDoc where
  apiVersion : Option Val
  entries : Option Entries
  generated : Option String
deriving DecidableEq

/-- `HelmIndex.fromFile` of `src/helm-index.ts` (lines 116-130):
missing file, empty parse result, or apiVersion different from the
string v1 yield the empty index; a v1 document without entries yields
an index with empty entries and no generated stamp; otherwise the
parsed entries and generated stamp are kept. -/
def fromFileA (fileExists : Bool) (parsed : Option ParsedDoc) : HelmIndexDoc :=
  if fileExists then
    match parsed with
    | none => emptyIdx
    | some p =>
      if p.apiVersion == some (.vStr "v1") then
        match p.entries with
        | none => ⟨[], none⟩
        | some es => ⟨es, p.generated⟩
      else emptyIdx
  else emptyIdx

/-- `HelmIndex.fromFile` of the revision embedded in
`src/helm-chart.ts` (lines 397-411): no apiVersion check at all; any
parsed document is normalized (missing entries become empty, the
apiVersion field is overwritten with v1) and kept. -/
def fromFileB (fileExists : Bool) (parsed : Option ParsedDoc) : HelmIndexDoc :=
  if fileExists then
    match parsed with
    | none => ⟨[], none⟩
    | some p => ⟨p.entries.getD [], p.generated⟩
  else emptyIdx

/-! ## Append, revision A (`src/helm-index.ts`, lines 150-223) -/

/-- The url built unconditionally from the base url with a single
trailing slash stripped (regex slash-dollar, first match only). -/
def stripOneTrailingSlash (s : String) : String :=
  match s.data.reverse with
  | c :: rest => if c = '/' then String.mk rest.reverse else s
  | [] => s

/-- The single entry url of revision A. -/
def urlA (baseUrl filename : String) : String :=
  stripOneTrailingSlash baseUrl ++ "/" ++ filename

/-- The fresh entry of revision A: computed fields in declaration
order, then the optional extra map spread over them (the source
applies no reserved-key check to `extra`). -/
def mkEntryA (name version digest filename baseUrl created : String)
    (extra : Option Obj) : Obj :=
  spreadInto
    [("apiVersion", .vStr "v2"), ("name", .vStr name),
     ("version", .vStr version), ("created", .vStr created),
     ("digest", .vStr digest), ("urls", .vStrList [urlA baseUrl filename])]
    (extra.getD [])

/-- The filter `e.version !== version` of revision A: strict
inequality, so a non-string stored version is never equal to the
string `version`. -/
def versionNeA (e : Obj) (version : String) : Bool :=
  match getKey e "version" with
  | some (.vStr s) => s != version
  | _ => true

/-- `HelmIndex.append` of `src/helm-index.ts`: `name` and `version`
are the values of `chart.name()` and `chart.version()`; `digest` the
computed archive digest, `filename` the archive base name, `created`
the call-time timestamp. Same-version entries are dropped, the fresh
entry is added, the list is re-sorted descending, the entries mapping
is rebuilt with only this name's list replaced (the key is appended
when new; an entry list is an array and arrays are truthy, so the
falsiness test on `entries[name]` is key absence). -/
def appendA (doc : HelmIndexDoc)
    (name version digest filename baseUrl created : String)
    (extra : Option Obj) : HelmIndexDoc :=
  let nextEntry := mkEntryA name version digest filename baseUrl created extra
  let existingForName := (lookupE doc.entries name).getD []
  let filtered := existingForName.filter (fun e => versionNeA e version)
  let sorted := sortEntries (filtered ++ [nextEntry])
  let nextEntries := doc.entries.map (fun p => if p.1 == name then (name, sorted) else p)
  if (lookupE doc.entries name).isSome then ⟨nextEntries, some created⟩
  else ⟨nextEntries ++ [(name, sorted)], some created⟩

/-! ## Append, revision B (embedded in `src/helm-chart.ts`,
lines 379-488) -/

/-- `baseUrl.trim().length > 0`: some non-whitespace character. -/
def trimNonEmpty (s : String) : Bool :=
  s.data.any (fun c => !c.isWhitespace)

/-- All trailing slashes stripped (regex slash-plus-dollar). -/
def stripTrailingSlashes (s : String) : String :=
  String.mk ((s.data.reverse.dropWhile (fun c => c == '/')).reverse)

/-- The urls of revision B: the bare archive file name when the base
url is blank, otherwise the joined absolute url. -/
def urlsB (baseUrl filename : String) : List String :=
  if trimNonEmpty baseUrl then [stripTrailingSlashes baseUrl ++ "/" ++ filename]
  else [filename]

/-- The reserved keys of `passthroughAllExceptReserved`. -/
def reservedKeys : List String :=
  ["name", "version", "apiVersion", "created", "digest", "urls"]

/-- One iteration of the `passthroughAllExceptReserved` loop: skip
reserved keys, coerce a scalar appVersion to its string
representation, copy everything else verbatim. -/
def passStep (acc : Obj) (kv : String × Val) : Obj :=
  if reservedKeys.contains kv.1 then acc
  else if kv.1 == "appVersion" then
    match kv.2 with
    | .vStr s => setKey acc kv.1 (.vStr s)
    | .vNum n => setKey acc kv.1 (.vStr (toString n))
    | v => setKey acc kv.1 v
  else setKey acc kv.1 kv.2

/-- `passthroughAllExceptReserved` (`src/helm-chart.ts`,
lines 347-373): copy every non-reserved raw key into the entry, with
scalar appVersion coerced to its string representation. (Keys with
undefined values are skipped in the source; the value model has no
undefined.) -/
def passthroughAllExceptReserved (raw : Obj) (into : Obj) : Obj :=
  raw.foldl passStep into

/-- The six computed fields of revision B's fresh entry, in source
declaration order. -/
def baseEntryB (chart : HelmChart) (digest filename baseUrl created : String) : Obj :=
  [("apiVersion", .vStr (chart.apiVersion.getD "v2")),
   ("name", .vStr chart.name),
   ("version", .vStr (chart.version.getD "")),
   ("created", .vStr created),
   ("digest", .vStr digest),
   ("urls", .vStrList (urlsB baseUrl filename))]

/-- The fresh entry of revision B: the six computed fields, then the
non-reserved raw chart fields, then the optional extra map assigned
key by key with no reserved check. -/
def mkEntryB (chart : HelmChart) (digest filename baseUrl created : String)
    (extra : Option Obj) : Obj :=
  spreadInto
    (passthroughAllExceptReserved chart.raw (baseEntryB chart digest filename baseUrl created))
    (extra.getD [])

/-- The filter of revision B compares `String(e.version)` with
`String(entry.version)`. -/
def versionNeB (e : Obj) (w : String) : Bool :=
  jsStringU (getKey e "version") != w

/-- Mapping write `entries[key] = v`. -/
def setKeyE (m : Entries) (k : String) (v : List Obj) : Entries :=
  if m.any (fun p => p.1 == k) then m.map (fun p => if p.1 == k then (k, v) else p)
  else m ++ [(k, v)]

/-- The merged list revision B stores under the chart name: the fresh
entry prepended to the surviving entries. No sorting is performed. -/
def appendBList (doc : HelmIndexDoc) (chart : HelmChart)
    (digest filename baseUrl created : String) (extra : Option Obj) : List Obj :=
  let entry := mkEntryB chart digest filename baseUrl created extra
  let existing := (lookupE doc.entries chart.name).getD []
  entry :: existing.filter (fun e => versionNeB e (jsStringU (getKey entry "version")))

/-- `HelmIndex.append` of the revision embedded in
`src/helm-chart.ts`: copies the entries mapping, replaces the list
under the chart name by the merged list, stamps `generated`. -/
def appendB (doc : HelmIndexDoc) (chart : HelmChart)
    (digest filename baseUrl created : String) (extra : Option Obj) : HelmIndexDoc :=
  ⟨setKeyE doc.entries chart.name
     (appendBList doc chart digest filename baseUrl created extra),
   some created⟩

/-! ## A small object store, to state copy-on-write

Revision B's `append` copies the receiver's entries mapping with an
object spread and then assigns one key of the copy in place
(`next.doc.entries[key] = ...`). To express that the receiver is not
mutated, the entries mappings and the entry arrays are given explicit
addresses in a store; the spread allocates a fresh mapping that shares
the receiver's array addresses, the merged list is a fresh array, and
the single in-place write hits only the fresh mapping. -/

/-- A heap of entries-mapping objects (name to array address) and of
entry-array objects. `nfree` is the next never-used address. -/
structure Store where
  maps : List (Nat × List (String × Nat))
  lists : List (Nat × List Obj)
  nfree : Nat
deriving DecidableEq

/-- Read a mapping object. -/
def lookupMap (s : Store) (a : Nat) : Option (List (String × Nat)) :=
  (s.maps.find? (fun p => p.1 == a)).map (·.2)

/-- Read an array object. -/
def lookupList (s : Store) (a : Nat) : Option (List Obj) :=
  (s.lists.find? (fun p => p.1 == a)).map (·.2)

/-- Allocate a fresh mapping object. -/
def allocMap (s : Store) (m : List (String × Nat)) : Store × Nat :=
  (⟨(s.nfree, m) :: s.maps, s.lists, s.nfree + 1⟩, s.nfree)

/-- Allocate a fresh array object. -/
def allocList (s : Store) (l : List Obj) : Store × Nat :=
  (⟨s.maps, (s.nfree, l) :: s.lists, s.nfree + 1⟩, s.nfree)

/-- Key assignment inside a mapping object's association list. -/
def assocSet (m : List (String × Nat)) (k : String) (v : Nat) : List (String × Nat) :=
  if m.any (fun p => p.1 == k) then m.map (fun p => if p.1 == k then (k, v) else p)
  else m ++ [(k, v)]

/-- The in-place write `mapObj[k] = v` on the mapping at address `a`. -/
def storeMapSet (s : Store) (a : Nat) (k : String) (v : Nat) : Store :=
  ⟨s.maps.map (fun p => if p.1 == a then (p.1, assocSet p.2 k v) else p),
   s.lists, s.nfree⟩

/-- The pure value of the entries mapping at address `a`: each name
with the entry list its array address holds. -/
def denoteEntries (s : Store) (a : Nat) : Entries :=
  ((lookupMap s a).getD []).map (fun kv => (kv.1, (lookupList s kv.2).getD []))

/-- Every allocated address, and every array address held inside a
mapping object, is below `nfree`. -/
def storeWF (s : Store) : Bool :=
  s.maps.all (fun p => decide (p.1 < s.nfree) && p.2.all (fun kv => kv.2 < s.nfree))
    && s.lists.all (fun p => p.1 < s.nfree)

/-- Revision B's `append` against the store, performing the same
objects operations in the same order as the source: build the fresh
entry (pure), copy the receiver's entries mapping into a fresh object
sharing the receiver's arrays, read the existing array through the
copy, build the merged array as a fresh object, then assign the chart
name's key of the copy in place. Returns the new store and the address
of the new entries mapping. -/
def appendBHeap (s : Store) (recv : Nat) (chart : HelmChart)
    (digest filename baseUrl created : String) (extra : Option Obj) : Store × Nat :=
  let entry := mkEntryB chart digest filename baseUrl created extra
  let m := (lookupMap s recv).getD []
  let alloc1 := allocMap s m
  let s1 := alloc1.1
  let mAddr := alloc1.2
  let key := chart.name
  let existing : List Obj :=
    match m.find? (fun p => p.1 == key) with
    | some kv => (lookupList s1 kv.2).getD []
    | none => []
  let filtered := existing.filter (fun e => versionNeB e (jsStringU (getKey entry "version")))
  let alloc2 := allocList s1 (entry :: filtered)
  let s2 := alloc2.1
  let lAddr := alloc2.2
  (storeMapSet s2 mAddr key lAddr, mAddr)

/-- The part of a store visible through addresses below `n`. -/
def restrictStore (s : Store) (n : Nat) : Store :=
  ⟨s.maps.filter (fun p => p.1 < n), s.lists.filter (fun p => p.1 < n), n⟩

/-! ## Association list lemmas (shared by objects, entries mappings and
store mapping objects) -/

theorem beq_str_t {a b : String} (h : a = b) : (a == b) = true := by simp [h]

theorem beq_str_f {a b : String} (h : ¬a = b) : (a == b) = false := by simp [h]

theorem find?_key_map_replace {β : Type} (m : List (String × β)) (k : String) (v : β) :
    (m.map (fun p => if p.1 == k then (k, v) else p)).find? (fun p => p.1 == k)
      = (m.find? (fun p => p.1 == k)).map (fun _ => (k, v)) := by
  induction m with
  | nil => rfl
  | cons p rest ih =>
    by_cases hpk : p.1 = k
    · subst hpk
      simp [List.find?_cons]
    · have h1 : (if p.1 == k then (k, v) else p) = p := by simp [hpk]
      rw [List.map_cons, h1, List.find?_cons, List.find?_cons, beq_str_f hpk]
      exact ih

theorem find?_key_map_replace_ne {β : Type} (m : List (String × β)) (k k' : String) (v : β)
    (h : k' ≠ k) :
    (m.map (fun p => if p.1 == k then (k, v) else p)).find? (fun p => p.1 == k')
      = m.find? (fun p => p.1 == k') := by
  induction m with
  | nil => rfl
  | cons p rest ih =>
    by_cases hpk : p.1 = k
    · have h1 : (if p.1 == k then (k, v) else p) = (k, v) := by simp [hpk]
      have h3 : ¬(p.1 = k') := fun hk => h (hpk ▸ hk).symm
      rw [List.map_cons, h1, List.find?_cons, List.find?_cons,
        beq_str_f (fun hk => h hk.symm), beq_str_f h3]
      exact ih
    · have h1 : (if p.1 == k then (k, v) else p) = p := by simp [hpk]
      rw [List.map_cons, h1, List.find?_cons, List.find?_cons]
      by_cases hpk' : p.1 = k'
      · rw [beq_str_t hpk']
      · rw [beq_str_f hpk']
        exact ih

theorem find?_key_none_map_id {β : Type} (m : List (String × β)) (k : String) (v : β)
    (h : m.find? (fun p => p.1 == k) = none) :
    m.map (fun p => if p.1 == k then (k, v) else p) = m := by
  have hall := List.find?_eq_none.mp h
  calc m.map (fun p => if p.1 == k then (k, v) else p)
      = m.map id := List.map_congr_left (fun p hp => by simp [by simpa using hall p hp])
    _ = m := List.map_id m

theorem filter_ne_map_replace {β : Type} (m : List (String × β)) (k : String) (v : β) :
    (m.map (fun p => if p.1 == k then (k, v) else p)).filter (fun p => !(p.1 == k))
      = m.filter (fun p => !(p.1 == k)) := by
  induction m with
  | nil => rfl
  | cons p rest ih =>
    by_cases hpk : p.1 = k
    · have h1 : (if p.1 == k then (k, v) else p) = (k, v) := by simp [hpk]
      rw [List.map_cons, h1, List.filter_cons, List.filter_cons, beq_str_t hpk,
        show ((k, v).1 == k) = true from beq_str_t rfl]
      exact ih
    · have h1 : (if p.1 == k then (k, v) else p) = p := by simp [hpk]
      rw [List.map_cons, h1, List.filter_cons, List.filter_cons, beq_str_f hpk]
      exact congrArg (List.cons p) ih

theorem filter_ne_append_key {β : Type} (m : List (String × β)) (k : String) (v : β) :
    (m ++ [(k, v)]).filter (fun p => !(p.1 == k)) = m.filter (fun p => !(p.1 == k)) := by
  simp [List.filter_append]

theorem find?_key_append_single_ne {β : Type} (m : List (String × β)) (k k' : String) (v : β)
    (h : k' ≠ k) :
    (m ++ [(k, v)]).find? (fun p => p.1 == k') = m.find? (fun p => p.1 == k') := by
  rw [List.find?_append]
  cases hm : m.find? (fun p => p.1 == k')
  · simp [List.find?_cons, beq_str_f (fun hk => h hk.symm)]
  · rfl

theorem str_contains_of_mem {l : List String} {a : String} (h : a ∈ l) :
    l.contains a = true := by
  simpa [List.contains] using List.elem_iff.mpr h

/-! ## Object property write lemmas -/

theorem hasKey_iff_find? (o : Obj) (k : String) :
    hasKey o k = true ↔ (o.find? (fun p => p.1 == k)).isSome = true := by
  simp [hasKey, List.any_eq_true, List.find?_isSome]

theorem getKey_setKey_self (o : Obj) (k : String) (v : Val) :
    getKey (setKey o k v) k = some v := by
  unfold setKey
  by_cases h : hasKey o k = true
  · rw [if_pos h]
    unfold getKey
    rw [find?_key_map_replace]
    obtain ⟨q, hq⟩ := Option.isSome_iff_exists.mp ((hasKey_iff_find? o k).mp h)
    rw [hq]
    rfl
  · rw [if_neg h]
    unfold getKey
    have hf : o.find? (fun p => p.1 == k) = none := by
      cases hm : o.find? (fun p => p.1 == k)
      · rfl
      · exact absurd ((hasKey_iff_find? o k).mpr (by rw [hm]; rfl)) h
    rw [List.find?_append, hf]
    simp [List.find?_cons]

theorem getKey_setKey_ne (o : Obj) (k : String) (v : Val) (k' : String) (h : k' ≠ k) :
    getKey (setKey o k v) k' = getKey o k' := by
  unfold setKey getKey
  by_cases hk : hasKey o k = true
  · rw [if_pos hk, find?_key_map_replace_ne _ _ _ _ h]
  · rw [if_neg hk, find?_key_append_single_ne _ _ _ _ h]

theorem getKey_spreadInto_ne (extra : List (String × Val)) (base : Obj) (k : String)
    (h : ∀ p ∈ extra, p.1 ≠ k) :
    getKey (spreadInto base extra) k = getKey base k := by
  induction extra generalizing base with
  | nil => rfl
  | cons q rest ih =>
    have hq : q.1 ≠ k := h q (List.mem_cons_self q rest)
    have hrest : ∀ p ∈ rest, p.1 ≠ k := fun p hp => h p (List.mem_cons_of_mem q hp)
    calc getKey (spreadInto base (q :: rest)) k
        = getKey (spreadInto (setKey base q.1 q.2) rest) k := rfl
      _ = getKey (setKey base q.1 q.2) k := ih (setKey base q.1 q.2) hrest
      _ = getKey base k := getKey_setKey_ne base q.1 q.2 k (fun he => hq he.symm)

/-! ## Passthrough lemmas -/

theorem getKey_passStep_ne (acc : Obj) (kv : String × Val) (k : String) (h : kv.1 ≠ k) :
    getKey (passStep acc kv) k = getKey acc k := by
  obtain ⟨k1, v1⟩ := kv
  have h1 : k1 ≠ k := h
  unfold passStep
  by_cases hres : reservedKeys.contains k1 = true
  · rw [if_pos hres]
  · rw [if_neg hres]
    by_cases hav : (k1 == "appVersion") = true
    · rw [if_pos hav]
      cases v1 <;> exact getKey_setKey_ne _ _ _ _ (fun he => h1 he.symm)
    · rw [if_neg hav]
      exact getKey_setKey_ne _ _ _ _ (fun he => h1 he.symm)

theorem getKey_passthrough_reserved (raw : Obj) (into : Obj) (k : String)
    (h : k ∈ reservedKeys) :
    getKey (passthroughAllExceptReserved raw into) k = getKey into k := by
  induction raw generalizing into with
  | nil => rfl
  | cons kv rest ih =>
    by_cases hres : reservedKeys.contains kv.1 = true
    · have hstep : passStep into kv = into := by unfold passStep; rw [if_pos hres]
      calc getKey (passthroughAllExceptReserved (kv :: rest) into) k
          = getKey (passthroughAllExceptReserved rest (passStep into kv)) k := rfl
        _ = getKey (passStep into kv) k := ih (passStep into kv)
        _ = getKey into k := by rw [hstep]
    · have hk1 : kv.1 ≠ k := fun he => hres (he ▸ str_contains_of_mem h)
      calc getKey (passthroughAllExceptReserved (kv :: rest) into) k
          = getKey (passthroughAllExceptReserved rest (passStep into kv)) k := rfl
        _ = getKey (passStep into kv) k := ih (passStep into kv)
        _ = getKey into k := getKey_passStep_ne into kv k hk1

theorem getKey_passthrough_no_key (raw : Obj) (into : Obj) (k : String)
    (h : ∀ p ∈ raw, p.1 ≠ k) :
    getKey (passthroughAllExceptReserved raw into) k = getKey into k := by
  induction raw generalizing into with
  | nil => rfl
  | cons kv rest ih =>
    have hrest : ∀ p ∈ rest, p.1 ≠ k := fun p hp => h p (List.mem_cons_of_mem kv hp)
    calc getKey (passthroughAllExceptReserved (kv :: rest) into) k
        = getKey (passthroughAllExceptReserved rest (passStep into kv)) k := rfl
      _ = getKey (passStep into kv) k := ih (passStep into kv) hrest
      _ = getKey into k := getKey_passStep_ne into kv k (h kv (List.mem_cons_self kv rest))

theorem getKey_passthrough_appVersion (raw : Obj) (into : Obj) (n : Int)
    (hnd : (raw.map Prod.fst).Nodup)
    (hv : getKey raw "appVersion" = some (.vNum n)) :
    getKey (passthroughAllExceptReserved raw into) "appVersion"
      = some (.vStr (toString n)) := by
  induction raw generalizing into with
  | nil => simp [getKey] at hv
  | cons kv rest ih =>
    by_cases hk : kv.1 = "appVersion"
    · have hv2 : kv.2 = .vNum n := by
        unfold getKey at hv
        rw [List.find?_cons, beq_str_t hk] at hv
        simpa using hv
      have hres : ¬(reservedKeys.contains kv.1 = true) := by
        rw [hk]; decide
      have hstep : passStep into kv = setKey into kv.1 (.vStr (toString n)) := by
        unfold passStep
        rw [if_neg hres, if_pos (beq_str_t hk), hv2]
      have hrest : ∀ p ∈ rest, p.1 ≠ "appVersion" := by
        intro p hp he
        have hmem : kv.1 ∈ rest.map Prod.fst := by
          rw [hk, ← he]; exact List.mem_map_of_mem Prod.fst hp
        rw [List.map_cons] at hnd
        exact (List.nodup_cons.mp hnd).1 hmem
      calc getKey (passthroughAllExceptReserved (kv :: rest) into) "appVersion"
          = getKey (passthroughAllExceptReserved rest (passStep into kv)) "appVersion" := rfl
        _ = getKey (passStep into kv) "appVersion" :=
            getKey_passthrough_no_key rest (passStep into kv) "appVersion" hrest
        _ = some (.vStr (toString n)) := by rw [hstep, hk]; exact getKey_setKey_self _ _ _
    · have hv' : getKey rest "appVersion" = some (.vNum n) := by
        unfold getKey at hv ⊢
        rw [List.find?_cons, beq_str_f hk] at hv
        exact hv
      have hnd' : (rest.map Prod.fst).Nodup := by
        rw [List.map_cons] at hnd
        exact (List.nodup_cons.mp hnd).2
      exact ih (passStep into kv) hnd' hv'

/-! ## The comparator is a total preorder -/

/-- Head of a padded segment list (missing segments are zero). -/
def hd0 : List Nat → Nat
  | [] => 0
  | a :: _ => a

/-- Tail of a padded segment list. -/
def tl0 : List Nat → List Nat
  | [] => []
  | _ :: as => as

theorem segGe_nil_right (x : List Nat) : segGe x [] = segGeR x := by
  cases x <;> rfl

theorem segGe_uncons (x y : List Nat) :
    segGe x y = if hd0 x = hd0 y then segGe (tl0 x) (tl0 y)
                else decide (hd0 y < hd0 x) := by
  match x, y with
  | [], [] => simp [segGe, segGeL, hd0, tl0]
  | [], b :: bs =>
    show segGeL (b :: bs) = _
    unfold segGeL
    by_cases hb : b = 0
    · rw [if_pos hb, if_pos (show hd0 ([] : List Nat) = hd0 (b :: bs) by simp [hd0, hb])]
      simp [tl0, segGe]
    · rw [if_neg hb, if_neg (show ¬(hd0 ([] : List Nat) = hd0 (b :: bs)) by simpa [hd0] using fun e => hb e.symm)]
      simp [hd0]
  | a :: as, [] =>
    show segGeR (a :: as) = _
    unfold segGeR
    by_cases ha : a = 0
    · rw [if_pos ha, if_pos (show hd0 (a :: as) = hd0 ([] : List Nat) by simp [hd0, ha])]
      simp [tl0, segGe_nil_right]
    · rw [if_neg ha, if_neg (show ¬(hd0 (a :: as) = hd0 ([] : List Nat)) by simpa [hd0] using ha)]
      simp [hd0, Nat.pos_of_ne_zero ha]
  | a :: as, b :: bs =>
    show (if a = b then segGe as bs else decide (b < a)) = _
    rfl

theorem segGe_total_n : ∀ (n : Nat) (x y : List Nat), x.length + y.length ≤ n →
    segGe x y = true ∨ segGe y x = true := by
  intro n
  induction n with
  | zero =>
    intro x y h
    cases x with
    | nil =>
      cases y with
      | nil => exact Or.inl rfl
      | cons b bs => simp at h
    | cons a as => simp at h
  | succ n ih =>
    intro x y h
    rw [segGe_uncons x y, segGe_uncons y x]
    by_cases he : hd0 x = hd0 y
    · rw [if_pos he, if_pos he.symm]
      apply ih
      cases x <;> cases y <;> simp [tl0] at h ⊢ <;> omega
    · rw [if_neg he, if_neg (fun e => he e.symm)]
      rcases Nat.lt_or_ge (hd0 x) (hd0 y) with hlt | hge
      · exact Or.inr (by simpa using hlt)
      · exact Or.inl (by simpa using Nat.lt_of_le_of_ne hge (fun e => he e.symm))

theorem segGe_total (x y : List Nat) : segGe x y = true ∨ segGe y x = true :=
  segGe_total_n (x.length + y.length) x y (Nat.le_refl _)

theorem segGe_trans_n : ∀ (n : Nat) (x y z : List Nat),
    x.length + y.length + z.length ≤ n →
    segGe x y = true → segGe y z = true → segGe x z = true := by
  intro n
  induction n with
  | zero =>
    intro x y z h _ _
    cases x with
    | nil =>
      cases z with
      | nil => rfl
      | cons c cs => simp at h
    | cons a as => simp at h
  | succ n ih =>
    intro x y z h h1 h2
    rw [segGe_uncons x y] at h1
    rw [segGe_uncons y z] at h2
    rw [segGe_uncons x z]
    by_cases he1 : hd0 x = hd0 y
    · rw [if_pos he1] at h1
      by_cases he2 : hd0 y = hd0 z
      · rw [if_pos he2] at h2
        rw [if_pos (he1.trans he2)]
        refine ih (tl0 x) (tl0 y) (tl0 z) ?_ h1 h2
        cases x <;> cases y <;> cases z <;> simp [tl0] at h ⊢ <;> omega
      · rw [if_neg he2] at h2
        have hlt : hd0 z < hd0 y := by simpa using h2
        rw [if_neg (fun e => he2 (by omega))]
        simp only [decide_eq_true_eq]
        omega
    · rw [if_neg he1] at h1
      have hlt1 : hd0 y < hd0 x := by simpa using h1
      by_cases he2 : hd0 y = hd0 z
      · rw [if_neg (fun e => he1 (by omega))]
        simp only [decide_eq_true_eq]
        omega
      · rw [if_neg he2] at h2
        have hlt2 : hd0 z < hd0 y := by simpa using h2
        rw [if_neg (by omega)]
        simp only [decide_eq_true_eq]
        omega

theorem segGe_trans {x y z : List Nat} (h1 : segGe x y = true) (h2 : segGe y z = true) :
    segGe x z = true :=
  segGe_trans_n (x.length + y.length + z.length) x y z (Nat.le_refl _) h1 h2

theorem entryLe_total (a b : Obj) : entryLe a b = true ∨ entryLe b a = true :=
  segGe_total _ _

theorem entryLe_trans {a b c : Obj} (h1 : entryLe a b = true) (h2 : entryLe b c = true) :
    entryLe a c = true :=
  segGe_trans h1 h2

/-! ## Stable sort correctness -/

theorem insertEntry_perm (e : Obj) (l : List Obj) : (insertEntry e l).Perm (e :: l) := by
  induction l with
  | nil => exact List.Perm.refl _
  | cons x xs ih =>
    unfold insertEntry
    by_cases h : entryLe e x = true
    · rw [if_pos h]
    · rw [if_neg h]
      exact (List.Perm.cons x ih).trans (List.Perm.swap e x xs)

theorem sortEntries_perm (l : List Obj) : (sortEntries l).Perm l := by
  induction l with
  | nil => exact List.Perm.refl _
  | cons x xs ih => exact (insertEntry_perm x (sortEntries xs)).trans (List.Perm.cons x ih)

theorem insertEntry_sorted (e : Obj) (l : List Obj)
    (hl : l.Pairwise (fun a b => entryLe a b = true)) :
    (insertEntry e l).Pairwise (fun a b => entryLe a b = true) := by
  induction l with
  | nil => simp [insertEntry]
  | cons x xs ih =>
    rcases List.pairwise_cons.mp hl with ⟨hx, hxs⟩
    unfold insertEntry
    by_cases h : entryLe e x = true
    · rw [if_pos h]
      refine List.pairwise_cons.mpr ⟨?_, hl⟩
      intro a ha
      rcases List.mem_cons.mp ha with rfl | ha'
      · exact h
      · exact entryLe_trans h (hx a ha')
    · rw [if_neg h]
      refine List.pairwise_cons.mpr ⟨?_, ih hxs⟩
      intro a ha
      rcases List.mem_cons.mp ((insertEntry_perm e xs).mem_iff.mp ha) with rfl | ha'
      · rcases entryLe_total x a with ht | ht
        · exact ht
        · exact absurd ht h
      · exact hx a ha'

theorem sortEntries_sorted (l : List Obj) :
    (sortEntries l).Pairwise (fun a b => entryLe a b = true) := by
  induction l with
  | nil => exact List.Pairwise.nil
  | cons x xs ih => exact insertEntry_sorted x (sortEntries xs) ih

/-! ## Entries mapping lemmas -/

theorem find?_key_isSome_of_any {β : Type} (m : List (String × β)) (k : String)
    (h : m.any (fun p => p.1 == k) = true) :
    (m.find? (fun p => p.1 == k)).isSome = true := by
  obtain ⟨q, hq, hpq⟩ := List.any_eq_true.mp h
  exact List.find?_isSome.mpr ⟨q, hq, hpq⟩

theorem any_of_find?_key_isSome {β : Type} (m : List (String × β)) (k : String)
    (h : (m.find? (fun p => p.1 == k)).isSome = true) :
    m.any (fun p => p.1 == k) = true := by
  obtain ⟨x, hx, hpx⟩ := List.find?_isSome.mp h
  exact List.any_eq_true.mpr ⟨x, hx, hpx⟩

theorem lookupE_isSome (m : Entries) (k : String) :
    (lookupE m k).isSome = (m.find? (fun p => p.1 == k)).isSome := by
  unfold lookupE
  cases m.find? (fun p => p.1 == k) <;> rfl

theorem find?_key_none_of_not_any {β : Type} (m : List (String × β)) (k : String)
    (h : ¬(m.any (fun p => p.1 == k) = true)) :
    m.find? (fun p => p.1 == k) = none := by
  cases hm : m.find? (fun p => p.1 == k) with
  | none => rfl
  | some q =>
    refine absurd (any_of_find?_key_isSome m k ?_) h
    rw [hm]; rfl

theorem lookupE_setKeyE_self (m : Entries) (k : String) (v : List Obj) :
    lookupE (setKeyE m k v) k = some v := by
  unfold setKeyE
  by_cases h : m.any (fun p => p.1 == k) = true
  · rw [if_pos h]
    unfold lookupE
    rw [find?_key_map_replace]
    obtain ⟨r, hr⟩ := Option.isSome_iff_exists.mp (find?_key_isSome_of_any m k h)
    rw [hr]; rfl
  · rw [if_neg h]
    unfold lookupE
    rw [List.find?_append, find?_key_none_of_not_any m k h]
    simp [List.find?_cons]

theorem lookupE_setKeyE_ne (m : Entries) (k : String) (v : List Obj) (k' : String)
    (h : k' ≠ k) :
    lookupE (setKeyE m k v) k' = lookupE m k' := by
  unfold setKeyE lookupE
  by_cases hk : m.any (fun p => p.1 == k) = true
  · rw [if_pos hk, find?_key_map_replace_ne _ _ _ _ h]
  · rw [if_neg hk, find?_key_append_single_ne _ _ _ _ h]

theorem setKeyE_filter_ne (m : Entries) (k : String) (v : List Obj) :
    (setKeyE m k v).filter (fun p => !(p.1 == k)) = m.filter (fun p => !(p.1 == k)) := by
  unfold setKeyE
  by_cases h : m.any (fun p => p.1 == k) = true
  · rw [if_pos h]; exact filter_ne_map_replace m k v
  · rw [if_neg h]; exact filter_ne_append_key m k v

/-- The entries mapping `appendA` rebuilds (replace the name's list
when present, append the key otherwise) is the mapping write of the
sorted merged list. -/
theorem appendA_entries (doc : HelmIndexDoc)
    (name version digest filename baseUrl created : String) (extra : Option Obj) :
    (appendA doc name version digest filename baseUrl created extra).entries
      = setKeyE doc.entries name
          (sortEntries ((((lookupE doc.entries name).getD []).filter
              (fun e => versionNeA e version))
            ++ [mkEntryA name version digest filename baseUrl created extra])) := by
  by_cases h : (lookupE doc.entries name).isSome = true
  · have hany : doc.entries.any (fun p => p.1 == name) = true :=
      any_of_find?_key_isSome _ _ ((lookupE_isSome doc.entries name) ▸ h)
    simp only [appendA, setKeyE]
    rw [if_pos h, if_pos hany]
  · have hany : ¬(doc.entries.any (fun p => p.1 == name) = true) := by
      intro ha
      exact h ((lookupE_isSome doc.entries name).symm ▸ find?_key_isSome_of_any _ _ ha)
    have hf : doc.entries.find? (fun p => p.1 == name) = none :=
      find?_key_none_of_not_any doc.entries name hany
    simp only [appendA, setKeyE]
    rw [if_neg h, if_neg hany, find?_key_none_map_id _ _ _ hf]

theorem lookupE_appendA (doc : HelmIndexDoc)
    (name version digest filename baseUrl created : String) (extra : Option Obj) :
    lookupE (appendA doc name version digest filename baseUrl created extra).entries name
      = some (sortEntries ((((lookupE doc.entries name).getD []).filter
          (fun e => versionNeA e version))
        ++ [mkEntryA name version digest filename baseUrl created extra])) := by
  rw [appendA_entries]
  exact lookupE_setKeyE_self _ _ _

theorem lookupE_appendB (doc : HelmIndexDoc) (chart : HelmChart)
    (digest filename baseUrl created : String) (extra : Option Obj) :
    lookupE (appendB doc chart digest filename baseUrl created extra).entries chart.name
      = some (appendBList doc chart digest filename baseUrl created extra) :=
  lookupE_setKeyE_self _ _ _

theorem appendA_filter_ne (doc : HelmIndexDoc)
    (name version digest filename baseUrl created : String) (extra : Option Obj) :
    (appendA doc name version digest filename baseUrl created extra).entries.filter
        (fun p => !(p.1 == name))
      = doc.entries.filter (fun p => !(p.1 == name)) := by
  rw [appendA_entries]
  exact setKeyE_filter_ne _ _ _

/-- The reserved fields of the fresh revision B entry are the computed
ones whenever the extra metadata avoids the reserved keys: passthrough
skips them, and the extra writes land elsewhere. -/
theorem mkEntryB_reserved (chart : HelmChart) (digest filename baseUrl created : String)
    (extra : Option Obj) (k : String) (hk : k ∈ reservedKeys)
    (hex : ∀ p ∈ extra.getD [], ¬(p.1 ∈ reservedKeys)) :
    getKey (mkEntryB chart digest filename baseUrl created extra) k
      = getKey (baseEntryB chart digest filename baseUrl created) k := by
  unfold mkEntryB
  rw [getKey_spreadInto_ne _ _ _ (fun p hp he => hex p hp (he ▸ hk))]
  exact getKey_passthrough_reserved _ _ _ hk

theorem mkEntryA_version (n V digest filename baseUrl created : String) (e : Option Obj)
    (he : ∀ p ∈ e.getD [], p.1 ≠ "version") :
    getKey (mkEntryA n V digest filename baseUrl created e) "version" = some (.vStr V) := by
  unfold mkEntryA
  rw [getKey_spreadInto_ne _ _ _ he]
  rfl

theorem versionNeA_of_getKey {E : Obj} {V : String}
    (h : getKey E "version" = some (.vStr V)) : versionNeA E V = false := by
  unfold versionNeA
  rw [h]
  simp

/-! ## Store lemmas -/

theorem find?_key_map_keyfix {β γ : Type} (m : List (String × β)) (f : String × β → String × γ)
    (hf : ∀ p, (f p).1 = p.1) (k : String) :
    (m.map f).find? (fun p => p.1 == k) = (m.find? (fun p => p.1 == k)).map f := by
  induction m with
  | nil => rfl
  | cons p rest ih =>
    rw [List.map_cons, List.find?_cons, List.find?_cons, hf p]
    cases hp : (p.1 == k)
    · exact ih
    · rfl

theorem any_key_map_keyfix {β γ : Type} (m : List (String × β)) (f : String × β → String × γ)
    (hf : ∀ p, (f p).1 = p.1) (k : String) :
    (m.map f).any (fun p => p.1 == k) = m.any (fun p => p.1 == k) := by
  induction m with
  | nil => rfl
  | cons p rest ih => rw [List.map_cons, List.any_cons, List.any_cons, hf p, ih]

theorem storeWF_maps {s : Store} (h : storeWF s = true) :
    ∀ p ∈ s.maps, p.1 < s.nfree ∧ ∀ kv ∈ p.2, kv.2 < s.nfree := by
  intro p hp
  unfold storeWF at h
  rw [Bool.and_eq_true] at h
  have h1 := List.all_eq_true.mp h.1 p hp
  rw [Bool.and_eq_true] at h1
  exact ⟨by simpa using h1.1, fun kv hkv => by simpa using List.all_eq_true.mp h1.2 kv hkv⟩

theorem storeWF_lists {s : Store} (h : storeWF s = true) :
    ∀ p ∈ s.lists, p.1 < s.nfree := by
  intro p hp
  unfold storeWF at h
  rw [Bool.and_eq_true] at h
  simpa using List.all_eq_true.mp h.2 p hp

/-- Key assignment on a mapping object commutes with reading the store
back into a value: assigning a fresh array address and then denoting
equals denoting first and then writing the fresh array's value, as
long as the old addresses denote the same lists in both stores. -/
theorem assocSet_map_denote (m : List (String × Nat)) (k : String) (aNew : Nat)
    (g g' : Nat → List Obj) (L : List Obj) (hgnew : g' aNew = L)
    (hold : ∀ p ∈ m, g' p.2 = g p.2) :
    (assocSet m k aNew).map (fun kv : String × Nat => (kv.1, g' kv.2))
      = setKeyE (m.map (fun kv : String × Nat => (kv.1, g kv.2))) k L := by
  unfold assocSet setKeyE
  rw [any_key_map_keyfix m (fun kv : String × Nat => (kv.1, g kv.2)) (fun p => rfl) k]
  by_cases hc : m.any (fun p : String × Nat => p.1 == k) = true
  · rw [if_pos hc, if_pos hc, List.map_map, List.map_map]
    refine List.map_congr_left (fun p hp => ?_)
    cases hp1 : (p.1 == k) with
    | false =>
      simp only [Function.comp_apply, hp1, Bool.false_eq_true, if_false]
      show (p.1, g' p.2) = (p.1, g p.2)
      rw [hold p hp]
    | true =>
      simp only [Function.comp_apply, hp1, if_true]
      show (k, g' aNew) = (k, L)
      rw [hgnew]
  · rw [if_neg hc, if_neg hc, List.map_append, List.map_cons, List.map_nil]
    congr 1
    · refine List.map_congr_left (fun p hp => ?_)
      show (p.1, g' p.2) = (p.1, g p.2)
      rw [hold p hp]
    · show [(k, g' aNew)] = [(k, L)]
      rw [hgnew]

/-- The receiver's mapping value: every array address it holds is
allocated. -/
theorem lookupMap_inner_wf {s : Store} (h : storeWF s = true) (recv : Nat) :
    ∀ kv ∈ (lookupMap s recv).getD [], kv.2 < s.nfree := by
  intro kv hkv
  unfold lookupMap at hkv
  cases hf : s.maps.find? (fun p => p.1 == recv) with
  | none => rw [hf] at hkv; simp at hkv
  | some q =>
    rw [hf] at hkv
    exact (storeWF_maps h q (List.mem_of_find?_eq_some hf)).2 kv hkv

/-! ## Claims -/

/-- Claim C6 (confirmed): appending a chart under one name leaves the
entry lists of every other name untouched, in both append revisions:
removing the appended name's pair from the entries mapping yields the
very same association list (same names, same order, same entry lists)
before and after the append. -/
theorem c6_append_preserves_other_names (doc : HelmIndexDoc)
    (name version digest filename baseUrl created : String) (extra : Option Obj)
    (doc2 : HelmIndexDoc) (chart : HelmChart) (d2 f2 b2 c2 : String) (e2 : Option Obj) :
    (appendA doc name version digest filename baseUrl created extra).entries.filter
        (fun p => !(p.1 == name))
      = doc.entries.filter (fun p => !(p.1 == name))
    ∧ (appendB doc2 chart d2 f2 b2 c2 e2).entries.filter
        (fun p => !(p.1 == chart.name))
      = doc2.entries.filter (fun p => !(p.1 == chart.name)) :=
  ⟨appendA_filter_ne doc name version digest filename baseUrl created extra,
   setKeyE_filter_ne _ _ _⟩

/-- Claim C3 counterexample: in the `helm-index.ts` append (the
revision the plugin's publish step calls), an empty `baseUrl` does not
yield the bare archive file name: the url is unconditionally joined
with a slash, so the entry's urls hold "/web-3.1.4.tgz" where the
claim requires "web-3.1.4.tgz". (The caller works around this by
overriding `urls` through the extra parameter when the base url is
blank.) -/
theorem c3_counterexample :
    ((lookupE (appendA emptyIdx "web" "3.1.4" "d0" "web-3.1.4.tgz" "" "t0" none).entries
        "web").getD []).map (fun e => getKey e "urls")
      = [some (.vStrList ["/web-3.1.4.tgz"])]
    ∧ ¬("/web-3.1.4.tgz" = "web-3.1.4.tgz") := by
  exact ⟨by decide, by decide⟩

/-- Claim C3 amended: the claimed url rule holds of the append
revision embedded in `src/helm-chart.ts` (blank or all-whitespace base
url gives exactly the archive base name; otherwise all trailing
slashes are trimmed and a single slash joins the base url and the file
name), and the fresh entry carrying those urls heads the name's list
in the returned index. The `helm-index.ts` revision instead always
joins with a slash, trimming at most one trailing slash. -/
theorem c3_amended_urls (doc : HelmIndexDoc) (chart : HelmChart)
    (digest filename baseUrl created : String) :
    getKey (mkEntryB chart digest filename baseUrl created none) "urls"
      = some (.vStrList (urlsB baseUrl filename))
    ∧ lookupE (appendB doc chart digest filename baseUrl created none).entries chart.name
      = some (appendBList doc chart digest filename baseUrl created none)
    ∧ urlsB "" "web-3.1.4.tgz" = ["web-3.1.4.tgz"]
    ∧ urlsB "   " "web-3.1.4.tgz" = ["web-3.1.4.tgz"]
    ∧ urlsB "https://repo.test/charts" "web-3.1.4.tgz"
      = ["https://repo.test/charts/web-3.1.4.tgz"] := by
  refine ⟨?_, lookupE_appendB doc chart digest filename baseUrl created none,
    by decide, by decide, by decide⟩
  rw [mkEntryB_reserved chart digest filename baseUrl created none "urls" (by decide)
    (fun p hp => absurd hp (List.not_mem_nil p))]
  rfl

/-- Claim C2 counterexample: the caller-supplied extra map is merged
into the entry last with no reserved-key check, so an override on
`digest` replaces the engine-computed digest in the entry the append
returns. -/
theorem c2_counterexample :
    ((lookupE (appendB emptyIdx ⟨[("name", .vStr "app")]⟩ "d0" "app-1.0.0.tgz" "" "t0"
        (some [("digest", .vStr "evil")])).entries "app").getD []).map
        (fun e => getKey e "digest")
      = [some (.vStr "evil")]
    ∧ ¬(Val.vStr "evil" = Val.vStr "d0") := by
  exact ⟨by decide, by decide⟩

/-- Claim C2 amended: manifest top-level keys among the reserved set
can never replace the engine-computed values — passthrough skips the
six reserved keys for every manifest — and the same holds of the
overrides map as long as it avoids the reserved keys. Overrides on a
reserved key, however, are applied unchecked and do replace the
computed value (the plugin itself overrides `urls` this way). -/
theorem c2_amended_reserved_fields (chart : HelmChart)
    (digest filename baseUrl created : String) (extra : Option Obj)
    (hex : ∀ p ∈ extra.getD [], ¬(p.1 ∈ reservedKeys)) :
    getKey (mkEntryB chart digest filename baseUrl created extra) "name"
        = some (.vStr chart.name)
    ∧ getKey (mkEntryB chart digest filename baseUrl created extra) "version"
        = some (.vStr (chart.version.getD ""))
    ∧ getKey (mkEntryB chart digest filename baseUrl created extra) "apiVersion"
        = some (.vStr (chart.apiVersion.getD "v2"))
    ∧ getKey (mkEntryB chart digest filename baseUrl created extra) "created"
        = some (.vStr created)
    ∧ getKey (mkEntryB chart digest filename baseUrl created extra) "digest"
        = some (.vStr digest)
    ∧ getKey (mkEntryB chart digest filename baseUrl created extra) "urls"
        = some (.vStrList (urlsB baseUrl filename)) := by
  refine ⟨?_, ?_, ?_, ?_, ?_, ?_⟩ <;>
    rw [mkEntryB_reserved chart digest filename baseUrl created extra _ (by decide) hex] <;>
    rfl

/-- Claim C2 witness: a manifest trying to forge `digest`, `urls` and
`created`, with an extra map touching only non-reserved keys, still
yields the engine-computed reserved fields. -/
theorem c2_witness :
    getKey (mkEntryB ⟨[("name", .vStr "app"), ("digest", .vStr "forged"),
        ("urls", .vStrList ["evil.tgz"]), ("created", .vStr "1999")]⟩
        "d0" "app-1.0.0.tgz" "" "t0" (some [("description", .vStr "ok")])) "name"
      = some (.vStr (HelmChart.name ⟨[("name", .vStr "app"), ("digest", .vStr "forged"),
        ("urls", .vStrList ["evil.tgz"]), ("created", .vStr "1999")]⟩))
    ∧ getKey (mkEntryB ⟨[("name", .vStr "app"), ("digest", .vStr "forged"),
        ("urls", .vStrList ["evil.tgz"]), ("created", .vStr "1999")]⟩
        "d0" "app-1.0.0.tgz" "" "t0" (some [("description", .vStr "ok")])) "version"
      = some (.vStr ((HelmChart.version ⟨[("name", .vStr "app"), ("digest", .vStr "forged"),
        ("urls", .vStrList ["evil.tgz"]), ("created", .vStr "1999")]⟩).getD ""))
    ∧ getKey (mkEntryB ⟨[("name", .vStr "app"), ("digest", .vStr "forged"),
        ("urls", .vStrList ["evil.tgz"]), ("created", .vStr "1999")]⟩
        "d0" "app-1.0.0.tgz" "" "t0" (some [("description", .vStr "ok")])) "apiVersion"
      = some (.vStr ((HelmChart.apiVersion ⟨[("name", .vStr "app"), ("digest", .vStr "forged"),
        ("urls", .vStrList ["evil.tgz"]), ("created", .vStr "1999")]⟩).getD "v2"))
    ∧ getKey (mkEntryB ⟨[("name", .vStr "app"), ("digest", .vStr "forged"),
        ("urls", .vStrList ["evil.tgz"]), ("created", .vStr "1999")]⟩
        "d0" "app-1.0.0.tgz" "" "t0" (some [("description", .vStr "ok")])) "created"
      = some (.vStr "t0")
    ∧ getKey (mkEntryB ⟨[("name", .vStr "app"), ("digest", .vStr "forged"),
        ("urls", .vStrList ["evil.tgz"]), ("created", .vStr "1999")]⟩
        "d0" "app-1.0.0.tgz" "" "t0" (some [("description", .vStr "ok")])) "digest"
      = some (.vStr "d0")
    ∧ getKey (mkEntryB ⟨[("name", .vStr "app"), ("digest", .vStr "forged"),
        ("urls", .vStrList ["evil.tgz"]), ("created", .vStr "1999")]⟩
        "d0" "app-1.0.0.tgz" "" "t0" (some [("description", .vStr "ok")])) "urls"
      = some (.vStrList (urlsB "" "app-1.0.0.tgz")) :=
  c2_amended_reserved_fields
    ⟨[("name", .vStr "app"), ("digest", .vStr "forged"),
      ("urls", .vStrList ["evil.tgz"]), ("created", .vStr "1999")]⟩
    "d0" "app-1.0.0.tgz" "" "t0" (some [("description", .vStr "ok")]) (by decide)

/-- Claim C9 (confirmed): a manifest carrying a numeric `appVersion`
yields an entry whose `appVersion` is the decimal string
representation of that number — the passthrough loop coerces scalar
appVersion values to strings before copying. -/
theorem c9_appversion_coerced (chart : HelmChart)
    (digest filename baseUrl created : String) (n : Int)
    (hnd : (chart.data.map Prod.fst).Nodup)
    (hv : getKey chart.data "appVersion" = some (.vNum n)) :
    getKey (mkEntryB chart digest filename baseUrl created none) "appVersion"
      = some (.vStr (toString n)) := by
  show getKey (passthroughAllExceptReserved chart.raw
      (baseEntryB chart digest filename baseUrl created)) "appVersion" = _
  exact getKey_passthrough_appVersion chart.data _ n hnd hv

/-- Claim C9 witness: `appVersion: 42` becomes the string "42". -/
theorem c9_witness :
    getKey (mkEntryB ⟨[("name", .vStr "app"), ("appVersion", .vNum 42)]⟩
        "d0" "f0" "" "t0" none) "appVersion" = some (.vStr (toString (42 : Int))) :=
  c9_appversion_coerced ⟨[("name", .vStr "app"), ("appVersion", .vNum 42)]⟩
    "d0" "f0" "" "t0" 42 (by decide) (by decide)

/-- Claim C1 counterexample: the append revision embedded in
`src/helm-chart.ts` does not sort after merging — it places the most
recent append first — so appending 1.0.0 then 2.0.0 then 1.5.0 yields
the order 1.5.0, 2.0.0, 1.0.0, not the claimed 2.0.0, 1.5.0, 1.0.0;
the pair 1.5.0, 2.0.0 even violates descending dot-segment order. -/
theorem c1_counterexample :
    ((lookupE (appendB (appendB (appendB emptyIdx
          ⟨[("name", .vStr "app"), ("version", .vStr "1.0.0")]⟩ "d1" "f1" "u" "t1" none)
          ⟨[("name", .vStr "app"), ("version", .vStr "2.0.0")]⟩ "d2" "f2" "u" "t2" none)
          ⟨[("name", .vStr "app"), ("version", .vStr "1.5.0")]⟩ "d3" "f3" "u" "t3" none).entries
        "app").getD []).map verOf
      = ["1.5.0", "2.0.0", "1.0.0"]
    ∧ ¬(["1.5.0", "2.0.0", "1.0.0"] = ["2.0.0", "1.5.0", "1.0.0"])
    ∧ segGe (segsOf "1.5.0") (segsOf "2.0.0") = false := by
  exact ⟨by decide, by decide, by decide⟩

/-- Claim C1 amended: the `helm-index.ts` append re-sorts the merged
list, so after any append — hence after any sequence of appends,
whatever the order — the appended name's list is sorted descending
(non-ascending, since distinct version strings such as 1.0 and
1.0.0 compare equal per dot-segment) under the comparator; appending
1.0.0 then 2.0.0 then 1.5.0 through that revision yields 2.0.0,
1.5.0, 1.0.0 as the claim's example demands. The revision embedded in
`src/helm-chart.ts` does not sort. -/
theorem c1_amended_sorted (doc : HelmIndexDoc)
    (name version digest filename baseUrl created : String) (extra : Option Obj) :
    ((lookupE (appendA doc name version digest filename baseUrl created extra).entries
        name).getD []).Pairwise (fun a b => entryLe a b = true)
    ∧ ((lookupE (appendA (appendA (appendA emptyIdx
          "app" "1.0.0" "d1" "app-1.0.0.tgz" "u" "t1" none)
          "app" "2.0.0" "d2" "app-2.0.0.tgz" "u" "t2" none)
          "app" "1.5.0" "d3" "app-1.5.0.tgz" "u" "t3" none).entries "app").getD []).map verOf
      = ["2.0.0", "1.5.0", "1.0.0"] := by
  constructor
  · rw [lookupE_appendA]
    exact sortEntries_sorted _
  · decide

/-- Claim C5 counterexample: the `fromFile` revision embedded in
`src/helm-chart.ts` performs no apiVersion check: a parsed document
with a foreign apiVersion keeps its entries (the apiVersion field is
simply overwritten with v1), so the result is not the empty index the
claim requires. -/
theorem c5_counterexample :
    fromFileB true (some ⟨some (.vStr "v2"),
        some [("other", [[("version", .vStr "9.9.9")]])], none⟩)
      = ⟨[("other", [[("version", .vStr "9.9.9")]])], none⟩
    ∧ ¬(fromFileB true (some ⟨some (.vStr "v2"),
        some [("other", [[("version", .vStr "9.9.9")]])], none⟩)
      = emptyIdx) := by
  exact ⟨by decide, by decide⟩

/-- Claim C5 amended: the `helm-index.ts` loader behaves as claimed on
everything the embedding models: a missing file, an empty parse
result, and a parsed document whose apiVersion is not the string v1
all produce the empty index. (A syntactically malformed file makes the
external YAML parser throw, which this loader does not catch; and the
`src/helm-chart.ts` revision keeps foreign-apiVersion documents.) -/
theorem c5_amended_lenient_load (fe : Bool) (parsed : Option ParsedDoc) :
    (fe = false → fromFileA fe parsed = emptyIdx)
    ∧ (parsed = none → fromFileA fe parsed = emptyIdx)
    ∧ (∀ p, parsed = some p → (p.apiVersion == some (.vStr "v1")) = false →
        fromFileA fe parsed = emptyIdx) := by
  refine ⟨?_, ?_, ?_⟩
  · intro h
    subst h
    rfl
  · intro h
    subst h
    cases fe <;> rfl
  · intro p hp hapi
    subst hp
    cases fe
    · rfl
    · simp [fromFileA, hapi]

/-- Claim C5 witness: the three empty-index cases at concrete inputs. -/
theorem c5_witness :
    fromFileA false none = emptyIdx
    ∧ fromFileA true none = emptyIdx
    ∧ fromFileA true (some ⟨some (.vStr "v2"), none, none⟩) = emptyIdx :=
  ⟨(c5_amended_lenient_load false none).1 rfl,
   (c5_amended_lenient_load true none).2.1 rfl,
   (c5_amended_lenient_load true (some ⟨some (.vStr "v2"), none, none⟩)).2.2
     ⟨some (.vStr "v2"), none, none⟩ rfl (by decide)⟩

/-- Claim C7 counterexample: the strict chart loader only checks that
`name` and `version` are strings, so a Chart.yaml whose name is the
empty string loads successfully — against the claim that load fails
whenever the name resolves to an empty string and that the name is
non-empty after every successful load. -/
theorem c7_counterexample :
    (strictFrom (some [("name", .vStr ""), ("version", .vStr "1.0.0")])).toOption
        = some ⟨[("name", .vStr ""), ("version", .vStr "1.0.0")]⟩
    ∧ StrictChart.name ⟨[("name", .vStr ""), ("version", .vStr "1.0.0")]⟩ = "" := by
  exact ⟨by decide, by decide⟩

/-- Claim C7 amended: the strict loader fails exactly when the parse
result is not an object or its `name` or `version` is absent or not a
string; on success it holds the parsed document, whose name and
version are thus present strings — but possibly empty, since the
string check accepts "". (The lenient revision of the loader never
fails at all on a missing name, coercing it to "".) -/
theorem c7_amended_strict_load (parsed : Option Obj) :
    ((strictFrom parsed).toOption.isSome
        = parsed.elim false (fun o => isStrOpt (getKey o "name") && isStrOpt (getKey o "version")))
    ∧ (∀ o s v, getKey o "name" = some (.vStr s) → getKey o "version" = some (.vStr v) →
        strictFrom (some o) = Except.ok ⟨o⟩
        ∧ StrictChart.name ⟨o⟩ = s ∧ StrictChart.version ⟨o⟩ = v) := by
  constructor
  · cases parsed with
    | none => rfl
    | some o =>
      cases hb : (isStrOpt (getKey o "name") && isStrOpt (getKey o "version")) <;>
        simp [strictFrom, hb, Except.toOption]
  · intro o s v hn hv
    have hb : (isStrOpt (getKey o "name") && isStrOpt (getKey o "version")) = true := by
      rw [hn, hv]
      rfl
    refine ⟨by simp [strictFrom, hb], ?_, ?_⟩
    · show (match getKey o "name" with
        | some (.vStr s) => s
        | _ => "") = s
      rw [hn]
    · show (match getKey o "version" with
        | some (.vStr s) => s
        | _ => "") = v
      rw [hv]

/-- Claim C4 counterexample: the claim quantifies over arbitrary
overrides, but an override on the `version` key is merged unchecked
into the fresh entry after the computed fields, so appending (app,
1.0.0) twice with a second-append override of version 9.9.9 leaves no
entry at all for (app, 1.0.0) — not the exactly one the claim
requires. -/
theorem c4_counterexample :
    ((lookupE (appendA (appendA emptyIdx "app" "1.0.0" "d1" "f1" "" "t1" none)
        "app" "1.0.0" "d2" "f2" "" "t2" (some [("version", .vStr "9.9.9")])).entries
        "app").getD []).countP (fun e => !(versionNeA e "1.0.0")) = 0
    ∧ ¬((0 : Nat) = 1) := by
  exact ⟨by decide, by decide⟩

/-- Claim C4 amended: provided the overrides maps do not touch the
`version` key (the documented call pattern), appending (n, V) twice
through the `helm-index.ts` append leaves exactly one entry with
version V under n — the entry built by the second append, carrying its
digest, urls, created stamp and overrides — while the entries of n
with other versions survive as a multiset from the original index and
every other name's list is untouched. -/
theorem c4_amended_second_append_wins (doc : HelmIndexDoc) (n V : String)
    (d1 f1 b1 t1 : String) (e1 : Option Obj) (d2 f2 b2 t2 : String) (e2 : Option Obj)
    (h1 : ∀ p ∈ e1.getD [], p.1 ≠ "version")
    (h2 : ∀ p ∈ e2.getD [], p.1 ≠ "version") :
    ((lookupE (appendA (appendA doc n V d1 f1 b1 t1 e1) n V d2 f2 b2 t2 e2).entries n).getD
        []).filter (fun e => !(versionNeA e V))
      = [mkEntryA n V d2 f2 b2 t2 e2]
    ∧ (((lookupE (appendA (appendA doc n V d1 f1 b1 t1 e1) n V d2 f2 b2 t2 e2).entries n).getD
        []).filter (fun e => versionNeA e V)).Perm
        (((lookupE doc.entries n).getD []).filter (fun e => versionNeA e V))
    ∧ (appendA (appendA doc n V d1 f1 b1 t1 e1) n V d2 f2 b2 t2 e2).entries.filter
        (fun p => !(p.1 == n))
      = doc.entries.filter (fun p => !(p.1 == n)) := by
  have hE1 : versionNeA (mkEntryA n V d1 f1 b1 t1 e1) V = false :=
    versionNeA_of_getKey (mkEntryA_version n V d1 f1 b1 t1 e1 h1)
  have hE2 : versionNeA (mkEntryA n V d2 f2 b2 t2 e2) V = false :=
    versionNeA_of_getKey (mkEntryA_version n V d2 f2 b2 t2 e2 h2)
  have hidem : ∀ (l : List Obj),
      (l.filter (fun e => versionNeA e V)).filter (fun e => versionNeA e V)
        = l.filter (fun e => versionNeA e V) := by
    intro l
    rw [List.filter_filter]
    exact List.filter_congr (fun a _ => Bool.and_self _)
  have hnil : ∀ (l : List Obj),
      (l.filter (fun e => versionNeA e V)).filter (fun e => !(versionNeA e V)) = [] := by
    intro l
    rw [List.filter_filter]
    rw [List.filter_eq_nil_iff]
    intro a _
    cases versionNeA a V <;> simp
  have hL1 : (lookupE (appendA doc n V d1 f1 b1 t1 e1).entries n).getD []
      = sortEntries ((((lookupE doc.entries n).getD []).filter (fun e => versionNeA e V))
          ++ [mkEntryA n V d1 f1 b1 t1 e1]) := by
    rw [lookupE_appendA]
    rfl
  have hL2 : (lookupE (appendA (appendA doc n V d1 f1 b1 t1 e1) n V d2 f2 b2 t2 e2).entries
        n).getD []
      = sortEntries (((((lookupE (appendA doc n V d1 f1 b1 t1 e1).entries n).getD []).filter
            (fun e => versionNeA e V)))
          ++ [mkEntryA n V d2 f2 b2 t2 e2]) := by
    rw [lookupE_appendA]
    rfl
  have hM1 : ((sortEntries ((((lookupE doc.entries n).getD []).filter
        (fun e => versionNeA e V)) ++ [mkEntryA n V d1 f1 b1 t1 e1])).filter
        (fun e => versionNeA e V)).Perm
      (((lookupE doc.entries n).getD []).filter (fun e => versionNeA e V)) := by
    refine ((sortEntries_perm _).filter _).trans ?_
    rw [List.filter_append, hidem, List.filter_cons]
    rw [hE1]
    simp
  refine ⟨?_, ?_, ?_⟩
  · rw [hL2, hL1]
    have hperm := ((sortEntries_perm (((sortEntries ((((lookupE doc.entries n).getD []).filter
        (fun e => versionNeA e V)) ++ [mkEntryA n V d1 f1 b1 t1 e1])).filter
          (fun e => versionNeA e V)) ++ [mkEntryA n V d2 f2 b2 t2 e2])).filter
        (fun e => !(versionNeA e V)))
    refine List.perm_singleton.mp (hperm.trans ?_)
    rw [List.filter_append, hnil, List.filter_cons]
    rw [hE2]
    simp
  · rw [hL2, hL1]
    refine ((sortEntries_perm _).filter _).trans ?_
    rw [List.filter_append, hidem, List.filter_cons]
    rw [hE2]
    simpa using hM1
  · rw [appendA_filter_ne, appendA_filter_ne]

/-- Claim C4 witness: two appends of (app, 1.0.0) with override-free
extras: the second entry is the unique survivor for that version. -/
theorem c4_witness :
    ((lookupE (appendA (appendA emptyIdx "app" "1.0.0" "da" "fa" "" "ta" none)
        "app" "1.0.0" "db" "fb" "" "tb" none).entries "app").getD
        []).filter (fun e => !(versionNeA e "1.0.0"))
      = [mkEntryA "app" "1.0.0" "db" "fb" "" "tb" none]
    ∧ (((lookupE (appendA (appendA emptyIdx "app" "1.0.0" "da" "fa" "" "ta" none)
        "app" "1.0.0" "db" "fb" "" "tb" none).entries "app").getD
        []).filter (fun e => versionNeA e "1.0.0")).Perm
        (((lookupE emptyIdx.entries "app").getD []).filter (fun e => versionNeA e "1.0.0"))
    ∧ (appendA (appendA emptyIdx "app" "1.0.0" "da" "fa" "" "ta" none)
        "app" "1.0.0" "db" "fb" "" "tb" none).entries.filter (fun p => !(p.1 == "app"))
      = emptyIdx.entries.filter (fun p => !(p.1 == "app")) :=
  c4_amended_second_append_wins emptyIdx "app" "1.0.0" "da" "fa" "" "ta" none
    "db" "fb" "" "tb" none (by simp) (by simp)

/-- Claim C10 (confirmed): a chart whose manifest has no version field
still appends — the entry's version is the empty string — and the
empty-string version takes part in same-version replacement like any
other version string: a second versionless append for the same name
leaves exactly one empty-string-version entry in that name's list. -/
theorem c10_missing_version (doc : HelmIndexDoc) (c1 c2 : HelmChart)
    (d1 f1 b1 t1 d2 f2 b2 t2 : String)
    (h1 : getKey c1.data "version" = none)
    (h2 : getKey c2.data "version" = none)
    (hn : c2.name = c1.name) :
    getKey (mkEntryB c1 d1 f1 b1 t1 none) "version" = some (.vStr "")
    ∧ ((lookupE (appendB (appendB doc c1 d1 f1 b1 t1 none) c2 d2 f2 b2 t2 none).entries
        c1.name).getD []).countP (fun e => !(versionNeB e "")) = 1 := by
  have hver : ∀ (c : HelmChart), getKey c.data "version" = none → HelmChart.version c = none := by
    intro c hc
    unfold HelmChart.version
    rw [hc]
    rfl
  have hEver : ∀ (c : HelmChart) (d f b t : String), getKey c.data "version" = none →
      getKey (mkEntryB c d f b t none) "version" = some (.vStr "") := by
    intro c d f b t hc
    rw [mkEntryB_reserved c d f b t none "version" (by decide)
      (fun p hp => absurd hp (List.not_mem_nil p))]
    have hbase : getKey (baseEntryB c d f b t) "version"
        = some (Val.vStr ((HelmChart.version c).getD "")) := rfl
    rw [hbase, hver c hc]
    rfl
  refine ⟨hEver c1 d1 f1 b1 t1 h1, ?_⟩
  have hlook : lookupE (appendB (appendB doc c1 d1 f1 b1 t1 none)
        c2 d2 f2 b2 t2 none).entries c1.name
      = some (appendBList (appendB doc c1 d1 f1 b1 t1 none) c2 d2 f2 b2 t2 none) := by
    rw [← hn]
    exact lookupE_appendB _ c2 d2 f2 b2 t2 none
  rw [hlook]
  show (mkEntryB c2 d2 f2 b2 t2 none
      :: ((lookupE (appendB doc c1 d1 f1 b1 t1 none).entries c2.name).getD []).filter
        (fun e => versionNeB e (jsStringU (getKey (mkEntryB c2 d2 f2 b2 t2 none) "version")))).countP
      (fun e => !(versionNeB e "")) = 1
  rw [hEver c2 d2 f2 b2 t2 h2]
  rw [List.countP_cons]
  have hzero : (((lookupE (appendB doc c1 d1 f1 b1 t1 none).entries c2.name).getD []).filter
      (fun e => versionNeB e (jsStringU (some (.vStr ""))))).countP
      (fun e => !(versionNeB e "")) = 0 := by
    rw [List.countP_eq_zero]
    intro a ha
    have hmem := (List.mem_filter.mp ha).2
    have : versionNeB a "" = true := hmem
    rw [this]
    simp
  rw [hzero]
  have hhead : versionNeB (mkEntryB c2 d2 f2 b2 t2 none) "" = false := by
    unfold versionNeB
    rw [hEver c2 d2 f2 b2 t2 h2]
    rfl
  rw [hhead]
  rfl

/-- Claim C10 witness: two appends of a versionless chart named app. -/
theorem c10_witness :
    getKey (mkEntryB ⟨[("name", .vStr "app")]⟩ "d1" "f1" "" "t1" none) "version"
      = some (.vStr "")
    ∧ ((lookupE (appendB (appendB emptyIdx ⟨[("name", .vStr "app")]⟩ "d1" "f1" "" "t1" none)
        ⟨[("name", .vStr "app")]⟩ "d2" "f2" "" "t2" none).entries
        (HelmChart.name ⟨[("name", .vStr "app")]⟩)).getD []).countP
        (fun e => !(versionNeB e "")) = 1 :=
  c10_missing_version emptyIdx ⟨[("name", .vStr "app")]⟩ ⟨[("name", .vStr "app")]⟩
    "d1" "f1" "" "t1" "d2" "f2" "" "t2" (by decide) (by decide) rfl

/-- Claim C8 (confirmed): append is copy-on-write. In the store model
of revision B's append — the revision that copies the receiver's
entries mapping and then assigns one key of the copy in place — a
well-formed store keeps every pre-existing object unchanged (the
restriction of the result store to the old addresses is the old
store), the receiver's entries mapping denotes the same value after
the call, the returned mapping is a fresh object distinct from the
receiver, and the returned mapping denotes exactly the entries the
pure `appendB` computes from the receiver's value. (Revision A builds
only fresh objects and never writes in place; its embedding `appendA`
is a pure function of the receiver's value.) -/
theorem c8_copy_on_write (s : Store) (recv : Nat) (chart : HelmChart)
    (digest filename baseUrl created : String) (extra : Option Obj)
    (hwf : storeWF s = true) (hr : recv < s.nfree) :
    restrictStore (appendBHeap s recv chart digest filename baseUrl created extra).1 s.nfree
      = restrictStore s s.nfree
    ∧ denoteEntries (appendBHeap s recv chart digest filename baseUrl created extra).1 recv
      = denoteEntries s recv
    ∧ (appendBHeap s recv chart digest filename baseUrl created extra).2 = s.nfree
    ∧ ¬((appendBHeap s recv chart digest filename baseUrl created extra).2 = recv)
    ∧ denoteEntries (appendBHeap s recv chart digest filename baseUrl created extra).1
        (appendBHeap s recv chart digest filename baseUrl created extra).2
      = (appendB ⟨denoteEntries s recv, none⟩
          chart digest filename baseUrl created extra).entries := by
  have hm_inner := lookupMap_inner_wf hwf recv
  have hfst_maps : (appendBHeap s recv chart digest filename baseUrl created extra).1.maps
      = ((s.nfree, (lookupMap s recv).getD []) :: s.maps).map
          (fun p => if p.1 == s.nfree
            then (p.1, assocSet p.2 chart.name (s.nfree + 1)) else p) := rfl
  have hfst_lists : (appendBHeap s recv chart digest filename baseUrl created extra).1.lists
      = (s.nfree + 1,
          mkEntryB chart digest filename baseUrl created extra
            :: (match ((lookupMap s recv).getD []).find?
                  (fun p : String × Nat => p.1 == chart.name) with
                | some kv => (lookupList s kv.2).getD []
                | none => []).filter
              (fun e => versionNeB e (jsStringU
                (getKey (mkEntryB chart digest filename baseUrl created extra) "version"))))
          :: s.lists := rfl
  have hsnd : (appendBHeap s recv chart digest filename baseUrl created extra).2 = s.nfree := rfl
  have hmaps_eq : (appendBHeap s recv chart digest filename baseUrl created extra).1.maps
      = (s.nfree, assocSet ((lookupMap s recv).getD []) chart.name (s.nfree + 1))
          :: s.maps := by
    rw [hfst_maps, List.map_cons]
    congr 1
    · rw [if_pos (by simp)]
    · calc s.maps.map (fun p => if p.1 == s.nfree
            then (p.1, assocSet p.2 chart.name (s.nfree + 1)) else p)
          = s.maps.map id := List.map_congr_left (fun p hp => by
            have h1 := (storeWF_maps hwf p hp).1
            have hne : (p.1 == s.nfree) = false := by
              simp only [beq_eq_false_iff_ne]
              omega
            simp [hne])
        _ = s.maps := List.map_id s.maps
  have hLL : ∀ a, a < s.nfree + 1 →
      lookupList (appendBHeap s recv chart digest filename baseUrl created extra).1 a
        = lookupList s a := by
    intro a ha
    unfold lookupList
    rw [hfst_lists, List.find?_cons]
    have hne : ((s.nfree + 1 : Nat) == a) = false := by
      simp only [beq_eq_false_iff_ne]
      omega
    rw [hne]
  have hLM : lookupMap (appendBHeap s recv chart digest filename baseUrl created extra).1 recv
      = lookupMap s recv := by
    unfold lookupMap
    rw [hmaps_eq, List.find?_cons]
    have hne : ((s.nfree : Nat) == recv) = false := by
      simp only [beq_eq_false_iff_ne]
      omega
    rw [hne]
  have hLMres : lookupMap (appendBHeap s recv chart digest filename baseUrl created extra).1
        s.nfree
      = some (assocSet ((lookupMap s recv).getD []) chart.name (s.nfree + 1)) := by
    unfold lookupMap
    rw [hmaps_eq, List.find?_cons]
    have ht : ((s.nfree : Nat) == s.nfree) = true := by simp
    rw [ht]
    rfl
  have hLLnew : lookupList (appendBHeap s recv chart digest filename baseUrl created extra).1
        (s.nfree + 1)
      = some (mkEntryB chart digest filename baseUrl created extra
          :: (match ((lookupMap s recv).getD []).find?
                (fun p : String × Nat => p.1 == chart.name) with
              | some kv => (lookupList s kv.2).getD []
              | none => []).filter
            (fun e => versionNeB e (jsStringU
              (getKey (mkEntryB chart digest filename baseUrl created extra) "version")))) := by
    unfold lookupList
    rw [hfst_lists, List.find?_cons]
    have ht : ((s.nfree + 1 : Nat) == s.nfree + 1) = true := by simp
    rw [ht]
    rfl
  have hden : denoteEntries s recv
      = ((lookupMap s recv).getD []).map
          (fun kv : String × Nat => (kv.1, (lookupList s kv.2).getD [])) := rfl
  have hexist : (lookupE (denoteEntries s recv) chart.name).getD []
      = (match ((lookupMap s recv).getD []).find?
            (fun p : String × Nat => p.1 == chart.name) with
         | some kv => (lookupList s kv.2).getD []
         | none => []) := by
    unfold lookupE
    rw [hden,
      find?_key_map_keyfix ((lookupMap s recv).getD [])
        (fun kv : String × Nat => (kv.1, (lookupList s kv.2).getD []))
        (fun p => rfl) chart.name]
    cases ((lookupMap s recv).getD []).find? (fun p : String × Nat => p.1 == chart.name) <;>
      rfl
  refine ⟨?_, ?_, hsnd, ?_, ?_⟩
  · unfold restrictStore
    rw [hmaps_eq, hfst_lists, List.filter_cons, List.filter_cons]
    have c1 : decide (s.nfree < s.nfree) = false := by simp
    have c2 : decide (s.nfree + 1 < s.nfree) = false := by simp
    rw [c1, c2]
    rfl
  · unfold denoteEntries
    rw [hLM]
    exact List.map_congr_left (fun kv hkv =>
      by rw [hLL kv.2 (Nat.lt_succ_of_lt (hm_inner kv hkv))])
  · rw [hsnd]
    omega
  · rw [hsnd]
    have hLHS : denoteEntries (appendBHeap s recv chart digest filename baseUrl created
          extra).1 s.nfree
        = (assocSet ((lookupMap s recv).getD []) chart.name (s.nfree + 1)).map
            (fun kv : String × Nat => (kv.1,
              (lookupList (appendBHeap s recv chart digest filename baseUrl created
                extra).1 kv.2).getD [])) := by
      unfold denoteEntries
      rw [hLMres]
      rfl
    rw [hLHS]
    show _ = setKeyE (denoteEntries s recv) chart.name
      (mkEntryB chart digest filename baseUrl created extra
        :: ((lookupE (denoteEntries s recv) chart.name).getD []).filter
          (fun e => versionNeB e (jsStringU
            (getKey (mkEntryB chart digest filename baseUrl created extra) "version"))))
    rw [hexist, hden]
    exact assocSet_map_denote ((lookupMap s recv).getD []) chart.name (s.nfree + 1)
      (fun a => (lookupList s a).getD [])
      (fun a => (lookupList (appendBHeap s recv chart digest filename baseUrl created
        extra).1 a).getD [])
      _
      (by
        show (lookupList (appendBHeap s recv chart digest filename baseUrl created
          extra).1 (s.nfree + 1)).getD [] = _
        rw [hLLnew]
        rfl)
      (fun p hp => by
        show (lookupList (appendBHeap s recv chart digest filename baseUrl created
            extra).1 p.2).getD []
          = (lookupList s p.2).getD []
        rw [hLL p.2 (Nat.lt_succ_of_lt ((lookupMap_inner_wf hwf recv) p hp))])

/-- A two-object store for exercising the copy-on-write theorem: one
entries mapping at address 0 holding chart name other, whose list
lives at address 1. -/
def wStore : Store :=
  ⟨[(0, [("other", 1)])], [(1, [[("version", Val.vStr "9.9.9")]])], 2⟩

/-- The chart appended in the copy-on-write witness. -/
def wChart : HelmChart := ⟨[("name", Val.vStr "app")]⟩

/-- Claim C8 witness: the copy-on-write theorem at the concrete store. -/
theorem c8_witness :
    restrictStore (appendBHeap wStore 0 wChart "d0" "app-1.0.0.tgz" "" "t0" none).1
        wStore.nfree
      = restrictStore wStore wStore.nfree
    ∧ denoteEntries (appendBHeap wStore 0 wChart "d0" "app-1.0.0.tgz" "" "t0" none).1 0
      = denoteEntries wStore 0
    ∧ (appendBHeap wStore 0 wChart "d0" "app-1.0.0.tgz" "" "t0" none).2 = wStore.nfree
    ∧ ¬((appendBHeap wStore 0 wChart "d0" "app-1.0.0.tgz" "" "t0" none).2 = 0)
    ∧ denoteEntries (appendBHeap wStore 0 wChart "d0" "app-1.0.0.tgz" "" "t0" none).1
        (appendBHeap wStore 0 wChart "d0" "app-1.0.0.tgz" "" "t0" none).2
      = (appendB ⟨denoteEntries wStore 0, none⟩
          wChart "d0" "app-1.0.0.tgz" "" "t0" none).entries :=
  c8_copy_on_write wStore 0 wChart "d0" "app-1.0.0.tgz" "" "t0" none (by decide) (by decide)

/-- Claim C7 witness: a well-formed manifest loads strictly with its
name and version. -/
theorem c7_witness :
    strictFrom (some [("name", .vStr "demo"), ("version", .vStr "1.2.3")])
      = Except.ok ⟨[("name", .vStr "demo"), ("version", .vStr "1.2.3")]⟩
    ∧ StrictChart.name ⟨[("name", .vStr "demo"), ("version", .vStr "1.2.3")]⟩ = "demo"
    ∧ StrictChart.version ⟨[("name", .vStr "demo"), ("version", .vStr "1.2.3")]⟩ = "1.2.3" :=
  (c7_amended_strict_load (some [("name", .vStr "demo"), ("version", .vStr "1.2.3")])).2
    [("name", .vStr "demo"), ("version", .vStr "1.2.3")] "demo" "1.2.3"
    (by decide) (by decide)

end SemRelHelm
